import Mathlib

/-!
Verification of the Discord-Markdown-Formatter core against its
natural-language specification.  Strings of the JavaScript source are
modelled as `List Char`; the ECMAScript string primitives used by the code
(`slice`, `indexOf`, `lastIndexOf`, `trim`, `split`, `startsWith`,
`endsWith`, `parseInt`) are embedded with their ECMAScript semantics,
including negative-index handling in `slice`.  All definitions are
executable; every function is total by construction, which models the
"never throws" part of the specification.
-/

namespace DMF

/-- Strings of the embedded program: JavaScript strings as lists of characters. -/
abbrev Str := List Char

/-- Conversion from Lean string literals. -/
def str (s : String) : Str := s.data

/-- The ECMAScript WhiteSpace / LineTerminator characters recognised by
`String.prototype.trim` (the common members; exotic Unicode space
separators are omitted — no claim exercises them, and every claim uses the
same set on both sides). -/
def jsIsWhitespace (c : Char) : Bool :=
  c = ' ' || c = '\t' || c = '\n' || c = '\r' || c = '\x0b' || c = '\x0c' ||
  c = ' ' || c = '﻿'

/-- `s.trim()`. -/
def jsTrim (s : Str) : Str :=
  ((s.dropWhile jsIsWhitespace).reverse.dropWhile jsIsWhitespace).reverse

/-- Index clamping of `String.prototype.slice`: a negative index counts from
the end of the string (clamped at 0), a non-negative one is clamped at the
length. -/
def jsIdx (len : Nat) (i : Int) : Nat :=
  if i < 0 then ((len : Int) + i).toNat else min i.toNat len

/-- `s.slice(b, e)` with ECMAScript semantics.  Note `-0 = 0`, which is what
makes `s.slice(0, -0)` the empty string: `0` is never "length minus zero". -/
def jsSlice (s : Str) (b e : Int) : Str :=
  (s.take (jsIdx s.length e)).drop (jsIdx s.length b)

/-- ASCII lower-casing, modelling the `i` flag of the scheme regexes. -/
def lowerStr (s : Str) : Str := s.map Char.toLower

/-- Case-insensitive prefix test: `/^pat/i.test(s)` for an ASCII-lowercase
literal pattern `pat`. -/
def startsWithCI (s pat : Str) : Bool := pat.isPrefixOf (lowerStr s)

/-- `s.includes(pat)`: whether `pat` occurs as a contiguous substring of `s`. -/
def hasSubstr : Str → Str → Bool
  | [], pat => pat.isEmpty
  | s :: rest, pat => pat.isPrefixOf (s :: rest) || hasSubstr rest pat

/-- `sanitizeUrl` from the sanitizer module: trim; block `javascript:`,
`data:`, `vbscript:`; accept `http:`/`https:`/`mailto:` (the
`ALLOWED_URI_REGEXP`) and strings starting with `/` or `#` unchanged;
prepend `https://` when no `://` occurs; otherwise reject. -/
def sanitizeUrl (url : Str) : Str :=
  let trimmed := jsTrim url
  if startsWithCI trimmed (str "javascript:") || startsWithCI trimmed (str "data:") ||
      startsWithCI trimmed (str "vbscript:") then
    []
  else if startsWithCI trimmed (str "http:") || startsWithCI trimmed (str "https:") ||
      startsWithCI trimmed (str "mailto:") ||
      (str "/").isPrefixOf trimmed || (str "#").isPrefixOf trimmed then
    trimmed
  else if !(hasSubstr trimmed (str "://")) then
    str "https://" ++ trimmed
  else
    []

/-- The algorithm of the specification sentence for `sanitizeUrl`, written
from the spec's words (reject dangerous scheme-prefixes; accept allowed
schemes and `/`/`#` starts unchanged; otherwise, when a `://` separator is
present reject, else prepend `https://`), for comparison with the source
function. -/
def specSanitizeUrl (url : Str) : Str :=
  let t := jsTrim url
  if startsWithCI t (str "javascript:") || startsWithCI t (str "data:") ||
      startsWithCI t (str "vbscript:") then
    []
  else if startsWithCI t (str "http:") || startsWithCI t (str "https:") ||
      startsWithCI t (str "mailto:") ||
      (str "/").isPrefixOf t || (str "#").isPrefixOf t then
    t
  else if hasSubstr t (str "://") then
    []
  else
    str "https://" ++ t

/-- C1: for every string, `sanitizeUrl` behaves exactly as the specified
algorithm on the trimmed input, and satisfies the three quoted examples:
`sanitizeUrl "javascript:alert(1)" = ""`,
`sanitizeUrl "example.com" = "https://example.com"`,
`sanitizeUrl "/local" = "/local"`. -/
theorem sanitizeUrl_meets_spec :
    (∀ url : Str, sanitizeUrl url = specSanitizeUrl url) ∧
    sanitizeUrl (str "javascript:alert(1)") = str "" ∧
    sanitizeUrl (str "example.com") = str "https://example.com" ∧
    sanitizeUrl (str "/local") = str "/local" := by
  refine ⟨fun url => ?_, by decide, by decide, by decide⟩
  simp only [sanitizeUrl, specSanitizeUrl]
  split
  · rfl
  · split
    · rfl
    · cases h : hasSubstr (jsTrim url) (str "://") <;> simp [h]

/-! ### Timestamp formatting (markdown module) -/

/-- The unit ladder of `formatRelativeTime` in the markdown module:
`[threshold, singular, plural]` rows, `none` standing for `Infinity`. -/
def relUnits : List (Option Int × String × String) :=
  [(some 60, "second", "seconds"),
   (some 3600, "minute", "minutes"),
   (some 86400, "hour", "hours"),
   (some 2592000, "day", "days"),
   (some 31536000, "month", "months"),
   (none, "year", "years")]

/-- `absDiff < threshold`, with `none` standing for `Infinity`. -/
def belowThreshold (absDiff : Int) : Option Int → Bool
  | none => true
  | some v => absDiff < v

/-- The selection loop of `formatRelativeTime`: walk the ladder, stop at the
first rung whose threshold exceeds `absDiff`, divide by the previous rung's
threshold (`prev`, initially 1).  If the loop falls through (it cannot: the
last threshold is `Infinity`) the initial `value = absDiff`,
`unit = "seconds"` stand, as in the source. -/
def pickRelUnit (absDiff : Int) : List (Option Int × String × String) → Int → Int × String
  | [], _ => (absDiff, "seconds")
  | (t, sg, pl) :: rest, prev =>
    if belowThreshold absDiff t then
      (absDiff.fdiv prev, if absDiff.fdiv prev = 1 then sg else pl)
    else
      pickRelUnit absDiff rest (t.getD prev)

/-- `formatRelativeTime(epoch)` from the markdown module.  The source reads
the ambient clock once, `const now = Math.floor(Date.now() / 1000)`; that
value is threaded here as the explicit argument `now`. -/
def formatRelativeTime (epoch now : Int) : String :=
  let diff := epoch - now
  let absDiff := |diff|
  let vu := pickRelUnit absDiff relUnits 1
  if diff < 0 then toString vu.1 ++ " " ++ vu.2 ++ " ago"
  else if 0 < diff then "in " ++ toString vu.1 ++ " " ++ vu.2
  else "now"

/-- The algorithm of the specification sentence for style `R`, written from
the spec's words: ascending ladder {60, 3600, 86400, 2592000, 31536000, ∞},
magnitude `floor(|diff| / previousThreshold)` (1 for the first rung),
pluralise when the magnitude is not 1, and render by the sign of `diff`. -/
def specRelativeTime (epoch now : Int) : String :=
  let diff := epoch - now
  let a := |diff|
  let nu : Int × String :=
    if a < 60 then (a.fdiv 1, if a.fdiv 1 = 1 then "second" else "seconds")
    else if a < 3600 then (a.fdiv 60, if a.fdiv 60 = 1 then "minute" else "minutes")
    else if a < 86400 then (a.fdiv 3600, if a.fdiv 3600 = 1 then "hour" else "hours")
    else if a < 2592000 then (a.fdiv 86400, if a.fdiv 86400 = 1 then "day" else "days")
    else if a < 31536000 then
      (a.fdiv 2592000, if a.fdiv 2592000 = 1 then "month" else "months")
    else (a.fdiv 31536000, if a.fdiv 31536000 = 1 then "year" else "years")
  if diff < 0 then toString nu.1 ++ " " ++ nu.2 ++ " ago"
  else if 0 < diff then "in " ++ toString nu.1 ++ " " ++ nu.2
  else "now"

/-- C2: the style-`R` relative formatter agrees with the specified two-stage
ladder algorithm for every epoch and every supplied `now`, and satisfies the
two quoted scenarios: equal epoch and now yields `"now"`, and `now` sixty
seconds earlier yields `"in 1 minute"`. -/
theorem formatRelativeTime_meets_spec :
    (∀ epoch now : Int, formatRelativeTime epoch now = specRelativeTime epoch now) ∧
    formatRelativeTime 1700000000 1700000000 = "now" ∧
    formatRelativeTime 1700000000 1699999940 = "in 1 minute" := by
  refine ⟨fun epoch now => ?_, by decide, by decide⟩
  simp only [formatRelativeTime, specRelativeTime, relUnits, pickRelUnit, belowThreshold,
    Option.getD, if_true, decide_eq_true_eq]

/-- The locale-dependent date renderings (`toLocaleTimeString`,
`toLocaleDateString`, `toLocaleString` with the fixed option sets of the
source), abstracted as an ambient capability: each field maps the epoch to
that locale projection.  The ambient locale is not a clock; it is held
fixed in the purity claim. -/
structure LocaleFns where
  shortTime : Int → String
  longTime : Int → String
  shortDate : Int → String
  longDate : Int → String
  shortDateTime : Int → String
  longDateTime : Int → String
  dflt : Int → String

/-- `formatTimestamp(epoch, style)` from the markdown module, with the one
ambient-clock read (`Date.now()` inside `formatRelativeTime`) threaded as
the explicit argument `clockMs`, and the locale projections supplied as `L`. -/
def formatTimestamp (L : LocaleFns) (epoch : Int) (style : String) (clockMs : Int) : String :=
  if style = "t" then L.shortTime epoch
  else if style = "T" then L.longTime epoch
  else if style = "d" then L.shortDate epoch
  else if style = "D" then L.longDate epoch
  else if style = "f" then L.shortDateTime epoch
  else if style = "F" then L.longDateTime epoch
  else if style = "R" then formatRelativeTime epoch (clockMs.fdiv 1000)
  else L.dflt epoch

/-- A concrete locale assignment, used to instantiate the purity theorem. -/
def constLocale : LocaleFns :=
  ⟨fun _ => "t", fun _ => "T", fun _ => "d", fun _ => "D", fun _ => "f", fun _ => "F",
   fun _ => "?"⟩

/-- C8: for a fixed locale, `formatTimestamp` depends on the ambient clock
only through the supplied `now = floor(clockMs / 1000)`: two invocations
with the same epoch, style and `now` produce the same string, whatever the
underlying clock readings were. -/
theorem formatTimestamp_pure (L : LocaleFns) (epoch : Int) (style : String)
    (clock₁ clock₂ : Int) (h : clock₁.fdiv 1000 = clock₂.fdiv 1000) :
    formatTimestamp L epoch style clock₁ = formatTimestamp L epoch style clock₂ := by
  simp only [formatTimestamp, h]

/-- Witness for C8 at a concrete input: clock readings 250ms and 999ms both
floor to second 0, and the two invocations agree. -/
theorem formatTimestamp_pure_witness :
    (250 : Int).fdiv 1000 = (999 : Int).fdiv 1000 ∧
    formatTimestamp constLocale 0 "R" 250 = formatTimestamp constLocale 0 "R" 999 :=
  ⟨by decide, formatTimestamp_pure constLocale 0 "R" 250 999 (by decide)⟩

/-! ### The Selection Transform Engine (selection module) -/

/-- `SelectionRange`: half-open character offsets into the text buffer. -/
structure SelectionRange where
  start : Nat
  «end» : Nat
  deriving DecidableEq, Repr

/-- `WrapResult`: the output type of every selection-transform function. -/
structure WrapResult where
  text : Str
  selection : SelectionRange
  deriving DecidableEq, Repr

/-- `toggleWrap(text, start, end, token)` (the `end` parameter is named
`stop` here, `end` being reserved).  Indices are `Nat`; the subtractions in
the unwrap branches are exact whenever the branch guards hold (they put the
token occurrences inside the string), so `Nat` subtraction coincides with
JavaScript number subtraction on every reachable branch. -/
def toggleWrap (text : Str) (start stop : Nat) (token : Str) : WrapResult :=
  let before := jsSlice text 0 start
  let selected := jsSlice text start stop
  let after := jsSlice text stop text.length
  let hasTokenBefore := token.isSuffixOf before
  let hasTokenAfter := token.isPrefixOf after
  if hasTokenBefore && hasTokenAfter then
    -- Unwrap: remove tokens from both sides
    { text := jsSlice before 0 (-(token.length : Int)) ++ selected ++
        jsSlice after (token.length : Int) after.length,
      selection := { start := start - token.length, «end» := stop - token.length } }
  else
    let selectedHasTokenStart := token.isPrefixOf selected
    let selectedHasTokenEnd := token.isSuffixOf selected
    if selectedHasTokenStart && selectedHasTokenEnd &&
        decide (token.length * 2 ≤ selected.length) then
      -- Unwrap: remove tokens from the selection itself
      { text := before ++ jsSlice selected (token.length : Int) (-(token.length : Int)) ++ after,
        selection := { start := start, «end» := stop - token.length * 2 } }
    else
      -- Wrap: add tokens around the selection
      { text := before ++ token ++ selected ++ token ++ after,
        selection := { start := start + token.length, «end» := stop + token.length } }

/-- `toggleWrapAsymmetric(text, start, end, startToken, endToken)`. -/
def toggleWrapAsymmetric (text : Str) (start stop : Nat) (startToken endToken : Str) :
    WrapResult :=
  let before := jsSlice text 0 start
  let selected := jsSlice text start stop
  let after := jsSlice text stop text.length
  if startToken.isSuffixOf before && endToken.isPrefixOf after then
    { text := jsSlice before 0 (-(startToken.length : Int)) ++ selected ++
        jsSlice after (endToken.length : Int) after.length,
      selection := { start := start - startToken.length, «end» := stop - startToken.length } }
  else
    { text := before ++ startToken ++ selected ++ endToken ++ after,
      selection := { start := start + startToken.length, «end» := stop + startToken.length } }

/-- `insertAt(text, position, toInsert)`. -/
def insertAt (text : Str) (position : Nat) (toInsert : Str) : WrapResult :=
  { text := jsSlice text 0 position ++ toInsert ++ jsSlice text position text.length,
    selection := { start := position + toInsert.length, «end» := position + toInsert.length } }

/-- First index of `c` in `s`, if any. -/
def firstIdx (c : Char) : Str → Option Nat
  | [] => none
  | x :: rest => if x = c then some 0 else (firstIdx c rest).map (· + 1)

/-- `s.indexOf(c, fromIdx)`: `-1` when `c` does not occur at or after
`fromIdx`. -/
def jsIndexOf (s : Str) (c : Char) (fromIdx : Nat) : Int :=
  match firstIdx c (s.drop fromIdx) with
  | some i => ((fromIdx + i : Nat) : Int)
  | none => -1

/-- Last index of `c` in `s`, if any. -/
def lastIdx (c : Char) (s : Str) : Option Nat :=
  (firstIdx c s.reverse).map (fun i => s.length - 1 - i)

/-- `s.lastIndexOf(c, fromIdx)`: the largest index `k ≤ fromIdx` at which
`c` occurs, `-1` if none.  ECMAScript clamps a negative `fromIdx` to `0`,
so the character at index 0 is still examined — the source hits this with
`lastIndexOf('\n', start - 1)` when `start = 0`. -/
def jsLastIndexOf (s : Str) (c : Char) (fromIdx : Int) : Int :=
  match lastIdx c (s.take (min fromIdx.toNat s.length + 1)) with
  | some k => (k : Int)
  | none => -1

/-- `s.split(c)` for a single-character separator. -/
def splitOnChar (c : Char) : Str → List Str
  | [] => [[]]
  | x :: rest =>
    if x = c then [] :: splitOnChar c rest
    else
      match splitOnChar c rest with
      | [] => [[x]]
      | l :: ls => (x :: l) :: ls

/-- `parts.join(c)`. -/
def joinWith (c : Char) : List Str → Str
  | [] => []
  | [l] => l
  | l :: ls => l ++ c :: joinWith c ls

/-- `line.trim() === ''`: the line is empty or whitespace-only. -/
def isBlank (l : Str) : Bool := l.all jsIsWhitespace

/-- `text.lastIndexOf('\n', start - 1) + 1`: where the line containing
`start` begins (the source's `lineStart`). -/
def lineStartOf (text : Str) (start : Nat) : Nat :=
  (jsLastIndexOf text '\n' ((start : Int) - 1) + 1).toNat

/-- The expanded region end (the source's `actualEnd`):
`text.indexOf('\n', end)`, or the text length when that is `-1`. -/
def actualEndOf (text : Str) (stop : Nat) : Nat :=
  if jsIndexOf text '\n' stop = -1 then text.length else (jsIndexOf text '\n' stop).toNat

/-- The expanded full-line region, split on newlines (the source's
`selected.split('\n')`). -/
def regionLines (text : Str) (start stop : Nat) : List Str :=
  splitOnChar '\n' (jsSlice text ((lineStartOf text start : Nat) : Int)
    ((actualEndOf text stop : Nat) : Int))

/-- `lines.every((line) => line.startsWith(prefixWithSpace) || line.trim() === '')`. -/
def allPrefixed (pws : Str) (lines : List Str) : Bool :=
  lines.all fun l => pws.isPrefixOf l || isBlank l

/-- Stripping: remove `prefixWithSpace` from every line that has it. -/
def stripLine (pws l : Str) : Str :=
  if pws.isPrefixOf l then l.drop pws.length else l

/-- Adding: put `prefixWithSpace` in front of every non-blank line. -/
def addLine (pws l : Str) : Str :=
  if !(isBlank l) then pws ++ l else l

/-- `toggleBlockPrefix(text, start, end, prefix)` (the prefix parameter is
named `pfx` here; the source's `lineStart`, `actualEnd`, `lines` and
`prefixWithSpace` are the named helpers `lineStartOf`, `actualEndOf`,
`regionLines` and `pfx ++ [' ']`).  The `end` selection offset of the strip
branch (`actualEnd + deltaLength` with negative `deltaLength`) is a `Nat`
subtraction; it is exact for every input, since the stripped occurrences
all lie inside the `[lineStart, actualEnd)` region. -/
def toggleBlockPrefix (text : Str) (start stop : Nat) (pfx : Str) : WrapResult :=
  if allPrefixed (pfx ++ [' ']) (regionLines text start stop) then
    -- Remove prefix from all lines that have it
    { text := jsSlice text 0 ((lineStartOf text start : Nat) : Int) ++
        joinWith '\n' ((regionLines text start stop).map (stripLine (pfx ++ [' ']))) ++
        jsSlice text ((actualEndOf text stop : Nat) : Int) ((text.length : Nat) : Int),
      selection := { start := lineStartOf text start,
                     «end» := actualEndOf text stop - (pfx ++ [' ']).length *
                       ((regionLines text start stop).filter
                         fun l => (pfx ++ [' ']).isPrefixOf l).length } }
  else
    -- Add prefix to all non-blank lines
    { text := jsSlice text 0 ((lineStartOf text start : Nat) : Int) ++
        joinWith '\n' ((regionLines text start stop).map (addLine (pfx ++ [' ']))) ++
        jsSlice text ((actualEndOf text stop : Nat) : Int) ((text.length : Nat) : Int),
      selection := { start := lineStartOf text start,
                     «end» := actualEndOf text stop + (pfx ++ [' ']).length *
                       ((regionLines text start stop).filter
                         fun l => !(isBlank l)).length } }

/-- `toggleCodeBlock(text, start, end, language)`.  The source computes an
"already fenced" check whose result is unused (the conditional body is an
empty TODO comment), so the function always wraps; that dead check is not
modelled. -/
def toggleCodeBlock (text : Str) (start stop : Nat) (language : Str) : WrapResult :=
  let before := jsSlice text 0 start
  let selected := jsSlice text start stop
  let after := jsSlice text stop text.length
  let openFence := str "```" ++ language ++ ['\n']
  let closeFence := '\n' :: str "```"
  { text := before ++ openFence ++ selected ++ closeFence ++ after,
    selection := { start := start + openFence.length, «end» := stop + openFence.length } }

/-- `insertMaskedLink(text, start, end, url)`. -/
def insertMaskedLink (text : Str) (start stop : Nat) (url : Str) : WrapResult :=
  let before := jsSlice text 0 start
  let selectedRaw := jsSlice text start stop
  -- `text.slice(start, end) || 'link text'`: the empty string is falsy
  let selected := if selectedRaw = [] then str "link text" else selectedRaw
  let after := jsSlice text stop text.length
  let link := '[' :: selected ++ str "](" ++ url ++ [')']
  let urlStart := start + selected.length + 3
  let urlEnd := urlStart + url.length
  { text := before ++ link ++ after,
    selection := { start := if url = str "url" then urlStart else start,
                   «end» := if url = str "url" then urlEnd else start + link.length } }

/-! ### Basic facts about the embedded string primitives -/

theorem jsIdx_natCast (len b : Nat) : jsIdx len (b : Int) = min b len := by
  simp [jsIdx]

theorem jsIdx_neg (len k : Nat) :
    jsIdx len (-(k : Int)) = if k = 0 then 0 else len - k := by
  simp only [jsIdx]
  split <;> split <;> omega

theorem jsSlice_zero (t : Str) (e : Nat) (he : e ≤ t.length) :
    jsSlice t 0 (e : Int) = t.take e := by
  have h0 : jsIdx t.length 0 = 0 := by simp [jsIdx]
  simp [jsSlice, h0, jsIdx_natCast, Nat.min_eq_left he]

theorem jsSlice_of_le (t : Str) (b e : Nat) (hb : b ≤ t.length) (he : e ≤ t.length) :
    jsSlice t (b : Int) (e : Int) = (t.take e).drop b := by
  simp [jsSlice, jsIdx_natCast, Nat.min_eq_left hb, Nat.min_eq_left he]

theorem jsSlice_to_len (t : Str) (b : Nat) :
    jsSlice t (b : Int) (t.length : Int) = t.drop b := by
  rcases le_total b t.length with hb | hb
  · simp [jsSlice, jsIdx_natCast, Nat.min_eq_left hb]
  · simp [jsSlice, jsIdx_natCast, Nat.min_eq_right hb,
      List.drop_eq_nil_of_le (le_refl t.length), List.drop_eq_nil_of_le hb]

theorem jsSlice_zero_neg (t : Str) (k : Nat) :
    jsSlice t 0 (-(k : Int)) = if k = 0 then [] else t.take (t.length - k) := by
  have h0 : jsIdx t.length 0 = 0 := by simp [jsIdx]
  simp only [jsSlice, h0, jsIdx_neg, List.drop_zero]
  split
  · simp
  · rfl

theorem jsSlice_neg_end (t : Str) (b k : Nat) (hk : 1 ≤ k) :
    jsSlice t (b : Int) (-(k : Int)) = (t.take (t.length - k)).drop (min b t.length) := by
  simp only [jsSlice, jsIdx_natCast, jsIdx_neg]
  rw [if_neg (by omega)]

/-! ### C10: `toggleWrap` with the empty token -/

/-- C10: with the empty token both surround checks succeed, so `toggleWrap`
takes the first unwrap branch; `before.slice(0, -0)` is `before.slice(0, 0)`,
the empty string, so the whole prefix before `start` is deleted while the
selection stays at `{start, end}` — in particular not a no-op when
`start > 0`. -/
theorem toggleWrap_empty_token (text : Str) (s e : Nat) (hse : s ≤ e)
    (hlen : e ≤ text.length) :
    toggleWrap text s e [] = ⟨text.drop s, ⟨s, e⟩⟩ ∧
    (0 < s → (toggleWrap text s e []).text ≠ text) := by
  have hsl : s ≤ text.length := le_trans hse hlen
  have hguard1 : List.isSuffixOf [] (jsSlice text 0 (s : Int)) = true := by
    simp [List.isSuffixOf_iff_suffix]
  have hguard2 : List.isPrefixOf [] (jsSlice text (e : Int) (text.length : Int)) = true := by
    simp [List.isPrefixOf_iff_prefix]
  have hmain : toggleWrap text s e [] = ⟨text.drop s, ⟨s, e⟩⟩ := by
    unfold toggleWrap
    simp only [hguard1, hguard2, Bool.and_self, if_true, List.length_nil, Nat.sub_zero]
    have hneg : jsSlice (jsSlice text 0 (s : Int)) 0 (-((0 : Nat) : Int)) = [] := by
      rw [jsSlice_zero_neg]; simp
    have hafter : jsSlice (jsSlice text (e : Int) (text.length : Int)) ((0 : Nat) : Int)
        (jsSlice text (e : Int) (text.length : Int)).length = jsSlice text (e : Int) (text.length : Int) := by
      rw [show ((jsSlice text (e : Int) (text.length : Int)).length : Int) =
        (((jsSlice text (e : Int) (text.length : Int)).length : Nat) : Int) from rfl]
      rw [jsSlice_to_len, List.drop_zero]
    rw [hneg, hafter, jsSlice_of_le text s e hsl hlen, jsSlice_to_len, List.nil_append]
    have : (text.take e).drop s ++ text.drop e = text.drop s := by
      conv_rhs => rw [← List.take_append_drop e text]
      rw [List.drop_append_of_le_length (by simpa [Nat.min_eq_left hlen] using hse)]
    rw [this]
  refine ⟨hmain, fun hs0 heq => ?_⟩
  rw [hmain] at heq
  have := congrArg List.length heq
  simp [List.length_drop] at this
  omega

/-- Witness for C10 at a concrete input: `toggleWrap("ab", 1, 2, "")`
deletes the prefix `"a"` and keeps the selection `{1, 2}`. -/
theorem toggleWrap_empty_token_witness :
    toggleWrap (str "ab") 1 2 [] = ⟨str "b", ⟨1, 2⟩⟩ ∧
    (toggleWrap (str "ab") 1 2 []).text ≠ str "ab" :=
  ⟨(toggleWrap_empty_token (str "ab") 1 2 (by decide) (by decide)).1,
   (toggleWrap_empty_token (str "ab") 1 2 (by decide) (by decide)).2 (by decide)⟩

/-! ### C3: the three cases of `toggleWrap` -/

/-- The three-case algorithm of the C3 specification sentence for
`toggleWrap`, written from the spec's words: (a) the token immediately
precedes `start` and immediately follows `end` → remove both occurrences
and shift the selection left by the token length; (b) the selected
substring itself starts and ends with the token and is at least twice the
token long → strip the inner occurrences, keep `start`, shrink `end` by
twice the token length; (c) otherwise insert the token on both sides and
shift both offsets right by the token length. -/
def specToggleWrap (text : Str) (s e : Nat) (token : Str) : WrapResult :=
  let L := token.length
  let selected := (text.take e).drop s
  if L ≤ s ∧ (text.drop (s - L)).take L = token ∧ (text.drop e).take L = token then
    ⟨text.take (s - L) ++ selected ++ text.drop (e + L), ⟨s - L, e - L⟩⟩
  else if token <+: selected ∧ token <:+ selected ∧ L * 2 ≤ selected.length then
    ⟨text.take s ++ (selected.take (selected.length - L)).drop L ++ text.drop e,
     ⟨s, e - L * 2⟩⟩
  else
    ⟨text.take s ++ token ++ selected ++ token ++ text.drop e, ⟨s + L, e + L⟩⟩

/-- C3 (amended to non-empty tokens): `toggleWrap` implements exactly the
specified three-case algorithm on the whole selection domain. -/
theorem toggleWrap_meets_spec (text : Str) (s e : Nat) (token : Str)
    (htok : token ≠ []) (hse : s ≤ e) (hlen : e ≤ text.length) :
    toggleWrap text s e token = specToggleWrap text s e token := by
  have hsl : s ≤ text.length := le_trans hse hlen
  have hL : 1 ≤ token.length := List.length_pos.mpr htok
  have hbefore : jsSlice text 0 (s : Int) = text.take s := jsSlice_zero text s hsl
  have hsel : jsSlice text (s : Int) (e : Int) = (text.take e).drop s :=
    jsSlice_of_le text s e hsl hlen
  have hafter : jsSlice text (e : Int) ((text.length : Nat) : Int) = text.drop e :=
    jsSlice_to_len text e
  have hlb : (text.take s).length = s := by simp [Nat.min_eq_left hsl]
  have hcondA : (List.isSuffixOf token (text.take s) &&
      List.isPrefixOf token (text.drop e)) = true ↔
      (token.length ≤ s ∧ (text.drop (s - token.length)).take token.length = token ∧
       (text.drop e).take token.length = token) := by
    rw [Bool.and_eq_true, List.isSuffixOf_iff_suffix, List.isPrefixOf_iff_prefix]
    constructor
    · rintro ⟨hsuf, hpre⟩
      have hLs : token.length ≤ s := by
        have := hsuf.length_le; omega
      refine ⟨hLs, ?_, ?_⟩
      · have hd := List.suffix_iff_eq_drop.mp hsuf
        rw [hlb] at hd
        rw [List.take_drop, Nat.sub_add_cancel hLs]
        exact hd.symm
      · exact (List.prefix_iff_eq_take.mp hpre).symm
    · rintro ⟨hLs, hdrop, htake⟩
      constructor
      · rw [List.suffix_iff_eq_drop, hlb]
        rw [List.take_drop, Nat.sub_add_cancel hLs] at hdrop
        exact hdrop.symm
      · rw [List.prefix_iff_eq_take]
        exact htake.symm
  have hcondB : (List.isPrefixOf token ((text.take e).drop s) &&
      List.isSuffixOf token ((text.take e).drop s) &&
      decide (token.length * 2 ≤ ((text.take e).drop s).length)) = true ↔
      (token <+: (text.take e).drop s ∧ token <:+ (text.take e).drop s ∧
       token.length * 2 ≤ ((text.take e).drop s).length) := by
    simp [List.isPrefixOf_iff_prefix, List.isSuffixOf_iff_suffix, Bool.and_eq_true,
      decide_eq_true_eq, and_assoc]
  simp only [toggleWrap, specToggleWrap, hbefore, hsel, hafter]
  by_cases hA : token.length ≤ s ∧ (text.drop (s - token.length)).take token.length = token ∧
      (text.drop e).take token.length = token
  · rw [if_pos (hcondA.mpr hA), if_pos hA]
    rcases hA with ⟨hLs, _, _⟩
    have h1 : jsSlice (text.take s) 0 (-(token.length : Int)) = text.take (s - token.length) := by
      rw [jsSlice_zero_neg, if_neg (by omega), hlb, List.take_take,
        Nat.min_eq_left (by omega)]
    have h2 : jsSlice (text.drop e) (token.length : Int) (((text.drop e).length : Nat) : Int) =
        text.drop (e + token.length) := by
      rw [jsSlice_to_len, List.drop_drop, Nat.add_comm]
    rw [h1, h2]
  · rw [if_neg (fun h => hA (hcondA.mp h)), if_neg hA]
    by_cases hB : token <+: (text.take e).drop s ∧ token <:+ (text.take e).drop s ∧
        token.length * 2 ≤ ((text.take e).drop s).length
    · rw [if_pos (hcondB.mpr hB), if_pos hB]
      have hLsel : token.length ≤ ((text.take e).drop s).length := by
        rcases hB with ⟨_, _, h⟩; omega
      have h3 : jsSlice ((text.take e).drop s) (token.length : Int) (-(token.length : Int)) =
          (((text.take e).drop s).take (((text.take e).drop s).length - token.length)).drop
            token.length := by
        rw [jsSlice_neg_end _ _ _ hL, Nat.min_eq_left hLsel]
      rw [h3]
    · rw [if_neg (fun h => hB (hcondB.mp h)), if_neg hB]

/-- Counterexample to C3 as stated (quantified over every token, the empty
one included): with `token = ""` the code deletes the whole prefix before
`start` instead of "removing both occurrences" of the empty token, so it
differs from the specified three-case algorithm. -/
theorem toggleWrap_meets_spec_cex :
    toggleWrap (str "ab") 1 2 [] ≠ specToggleWrap (str "ab") 1 2 [] := by decide

/-- Witness for C3 at the quoted scenario:
`toggleWrap("hello world", 0, 5, "**")` agrees with the specified algorithm
and returns `{ text: "**hello** world", selection: {2, 7} }`. -/
theorem toggleWrap_meets_spec_witness :
    toggleWrap (str "hello world") 0 5 (str "**") =
      specToggleWrap (str "hello world") 0 5 (str "**") ∧
    toggleWrap (str "hello world") 0 5 (str "**") = ⟨str "**hello** world", ⟨2, 7⟩⟩ :=
  ⟨toggleWrap_meets_spec (str "hello world") 0 5 (str "**") (by decide) (by decide)
    (by decide), by decide⟩

/-! ### C4: the toggle round trip -/

/-- The two halves of the selection glued back together give the suffix from
`s`. -/
theorem drop_take_append_drop (t : Str) (s e : Nat) (hse : s ≤ e) (hlen : e ≤ t.length) :
    (t.take e).drop s ++ t.drop e = t.drop s := by
  conv_rhs => rw [← List.take_append_drop e t]
  rw [List.drop_append_of_le_length (by simp [Nat.min_eq_left hlen, hse])]

/-- Whether `toggleWrap` takes its final (insert) branch: neither unwrap
guard of the source fires. -/
def takesWrapBranch (text : Str) (s e : Nat) (token : Str) : Bool :=
  !(List.isSuffixOf token (jsSlice text 0 (s : Int)) &&
    List.isPrefixOf token (jsSlice text (e : Int) (text.length : Int))) &&
  !(List.isPrefixOf token (jsSlice text (s : Int) (e : Int)) &&
    List.isSuffixOf token (jsSlice text (s : Int) (e : Int)) &&
    decide (token.length * 2 ≤ (jsSlice text (s : Int) (e : Int)).length))

/-- C4 (amended): the round trip holds in the wrap-then-unwrap direction.
When the first application of `toggleWrap` takes the insert branch, its
selection is `{s + L, e + L}`, and applying `toggleWrap` again with the
same token to the resulting text and resulting selection restores the
original text and selection exactly. -/
theorem toggleWrap_roundtrip (text : Str) (s e : Nat) (token : Str)
    (htok : token ≠ []) (hse : s ≤ e) (hlen : e ≤ text.length)
    (hwrap : takesWrapBranch text s e token = true) :
    (toggleWrap text s e token).selection = ⟨s + token.length, e + token.length⟩ ∧
    toggleWrap (toggleWrap text s e token).text (s + token.length) (e + token.length) token =
      ⟨text, ⟨s, e⟩⟩ := by
  have hsl : s ≤ text.length := le_trans hse hlen
  have hL : 1 ≤ token.length := List.length_pos.mpr htok
  simp only [takesWrapBranch, Bool.and_eq_true, Bool.not_eq_true'] at hwrap
  obtain ⟨hw1, hw2⟩ := hwrap
  have hfirst : toggleWrap text s e token =
      ⟨text.take s ++ token ++ (text.take e).drop s ++ token ++ text.drop e,
       ⟨s + token.length, e + token.length⟩⟩ := by
    unfold toggleWrap
    rw [if_neg (by rw [hw1]; simp), if_neg (by rw [hw2]; simp)]
    rw [jsSlice_zero text s hsl, jsSlice_of_le text s e hsl hlen, jsSlice_to_len text e]
  refine ⟨by rw [hfirst], ?_⟩
  rw [hfirst]
  set sel := (text.take e).drop s with hseldef
  have hsellen : sel.length = e - s := by simp [hseldef, Nat.min_eq_left hlen]
  -- regroup the new text around the selection offsets
  have hsplit : text.take s ++ token ++ sel ++ token ++ text.drop e =
      (text.take s ++ token) ++ (sel ++ (token ++ text.drop e)) := by
    simp [List.append_assoc]
  have hlb : (text.take s ++ token).length = s + token.length := by
    simp [Nat.min_eq_left hsl]
  have hT2len : (text.take s ++ token ++ sel ++ token ++ text.drop e).length =
      text.length + token.length + token.length := by
    simp [hsellen, Nat.min_eq_left hsl]
    omega
  have hbefore2 : jsSlice (text.take s ++ token ++ sel ++ token ++ text.drop e) 0
      ((s + token.length : Nat) : Int) = text.take s ++ token := by
    rw [jsSlice_zero _ _ (by rw [hT2len]; omega), hsplit, ← hlb, List.take_left]
  have hsel2 : jsSlice (text.take s ++ token ++ sel ++ token ++ text.drop e)
      ((s + token.length : Nat) : Int) ((e + token.length : Nat) : Int) = sel := by
    rw [jsSlice_of_le _ _ _ (by rw [hT2len]; omega) (by rw [hT2len]; omega)]
    have hmid : (text.take s ++ token ++ sel ++ token ++ text.drop e).take (e + token.length) =
        (text.take s ++ token) ++ sel := by
      have hassoc : text.take s ++ token ++ sel ++ token ++ text.drop e =
          ((text.take s ++ token) ++ sel) ++ (token ++ text.drop e) := by
        simp [List.append_assoc]
      have hlen2 : ((text.take s ++ token) ++ sel).length = e + token.length := by
        simp [hsellen, Nat.min_eq_left hsl]
        omega
      rw [hassoc, ← hlen2, List.take_left]
    rw [hmid, ← hlb, List.drop_left]
  have hafter2 : jsSlice (text.take s ++ token ++ sel ++ token ++ text.drop e)
      ((e + token.length : Nat) : Int)
      (((text.take s ++ token ++ sel ++ token ++ text.drop e).length : Nat) : Int) =
      token ++ text.drop e := by
    rw [jsSlice_to_len]
    have hassoc : text.take s ++ token ++ sel ++ token ++ text.drop e =
        ((text.take s ++ token) ++ sel) ++ (token ++ text.drop e) := by
      simp [List.append_assoc]
    have hlen2 : ((text.take s ++ token) ++ sel).length = e + token.length := by
      simp [hsellen, Nat.min_eq_left hsl]
      omega
    rw [hassoc, ← hlen2, List.drop_left]
  unfold toggleWrap
  rw [hbefore2, hsel2, hafter2]
  rw [if_pos (by
    rw [Bool.and_eq_true, List.isSuffixOf_iff_suffix, List.isPrefixOf_iff_prefix]
    exact ⟨List.suffix_append _ _, List.prefix_append _ _⟩)]
  have hx1 : jsSlice (text.take s ++ token) 0 (-(token.length : Int)) = text.take s := by
    rw [jsSlice_zero_neg, if_neg (by omega), hlb, Nat.add_sub_cancel,
      List.take_append_of_le_length (by simp [Nat.min_eq_left hsl]), List.take_take,
      Nat.min_self]
  have hx2 : jsSlice (token ++ text.drop e) (token.length : Int)
      (((token ++ text.drop e).length : Nat) : Int) = text.drop e := by
    rw [jsSlice_to_len, List.drop_left]
  rw [hx1, hx2]
  have : text.take s ++ (sel ++ text.drop e) = text := by
    rw [hseldef, drop_take_append_drop text s e hse hlen, List.take_append_drop]
  simp only [Nat.add_sub_cancel]
  rw [show text.take s ++ sel ++ text.drop e = text.take s ++ (sel ++ text.drop e) by
    simp [List.append_assoc], this]

/-- Counterexample to C4 as stated: on `("**a**", 0, 5, "**")` the first
application strips the inner delimiters (selection `{0,1}`), the second
re-wraps, and the final selection is `{2,3}`, not the original `{0,5}` —
the round trip does not restore the triple. -/
theorem toggleWrap_roundtrip_cex :
    ¬((toggleWrap (toggleWrap (str "**a**") 0 5 (str "**")).text
        (toggleWrap (str "**a**") 0 5 (str "**")).selection.start
        (toggleWrap (str "**a**") 0 5 (str "**")).selection.«end» (str "**")) =
      ⟨str "**a**", ⟨0, 5⟩⟩) := by decide

/-- Witness for C4 at a concrete input: wrapping `"hello"` in
`"hello world"` and toggling again restores text and selection. -/
theorem toggleWrap_roundtrip_witness :
    (toggleWrap (str "hello world") 0 5 (str "**")).selection = ⟨2, 7⟩ ∧
    toggleWrap (toggleWrap (str "hello world") 0 5 (str "**")).text 2 7 (str "**") =
      ⟨str "hello world", ⟨0, 5⟩⟩ :=
  toggleWrap_roundtrip (str "hello world") 0 5 (str "**") (by decide) (by decide)
    (by decide) (by decide)

/-! ### C6: `insertMaskedLink` -/

/-- The C6 sentence as a function of the inputs (with its last clause
amended): build `"[" ++ selected ++ "](" ++ url ++ ")"` with the
placeholder `"link text"` for an empty selection; when `url` is the
literal default placeholder `"url"` select exactly the URL portion,
otherwise select the entire inserted link. -/
def specInsertMaskedLink (text : Str) (s e : Nat) (url : Str) : WrapResult :=
  let sel := if (text.take e).drop s = [] then str "link text" else (text.take e).drop s
  let link := str "[" ++ sel ++ str "](" ++ url ++ str ")"
  ⟨text.take s ++ link ++ text.drop e,
   if url = str "url" then ⟨s + sel.length + 3, s + sel.length + 3 + url.length⟩
   else ⟨s, s + link.length⟩⟩

/-- C6 (amended in its final clause): `insertMaskedLink` builds the masked
link with placeholder substitution as specified; with the default
placeholder URL the selection covers the URL portion, and otherwise the
selection covers the entire inserted link (not a collapsed caret). -/
theorem insertMaskedLink_meets_spec (text : Str) (s e : Nat) (url : Str)
    (hse : s ≤ e) (hlen : e ≤ text.length) :
    insertMaskedLink text s e url = specInsertMaskedLink text s e url := by
  have hsl : s ≤ text.length := le_trans hse hlen
  simp only [insertMaskedLink, specInsertMaskedLink, jsSlice_zero text s hsl,
    jsSlice_of_le text s e hsl hlen, jsSlice_to_len text e]
  by_cases hurl : url = str "url"
  · rw [if_pos hurl, if_pos hurl, if_pos hurl]
    exact rfl
  · rw [if_neg hurl, if_neg hurl, if_neg hurl]
    exact rfl

/-- Counterexample to C6 as stated: with a non-placeholder URL the claim
says the selection is a collapsed caret just after the inserted link; on
`insertMaskedLink("", 0, 0, "x")` the link is `"[link text](x)"` (14
characters) but the selection is `{0, 14}` — the whole link, not the caret
`{14, 14}`. -/
theorem insertMaskedLink_meets_spec_cex :
    (insertMaskedLink (str "") 0 0 (str "x")).selection ≠ ⟨14, 14⟩ ∧
    (insertMaskedLink (str "") 0 0 (str "x")).selection = ⟨0, 14⟩ := by decide

/-- Witness for C6 at concrete inputs, both the placeholder-URL and the
explicit-URL cases. -/
theorem insertMaskedLink_meets_spec_witness :
    insertMaskedLink (str "ab") 0 1 (str "url") = specInsertMaskedLink (str "ab") 0 1 (str "url") ∧
    insertMaskedLink (str "ab") 0 1 (str "https://e.co") =
      specInsertMaskedLink (str "ab") 0 1 (str "https://e.co") :=
  ⟨insertMaskedLink_meets_spec (str "ab") 0 1 (str "url") (by decide) (by decide),
   insertMaskedLink_meets_spec (str "ab") 0 1 (str "https://e.co") (by decide) (by decide)⟩

/-! ### C7: the `discord_timestamp` inline rule -/

/-- `parseInt(s, 10)`: skip leading whitespace, an optional sign, then take
the longest run of decimal digits; `none` (JavaScript `NaN`) when that run
is empty. -/
def jsParseInt10 (s : Str) : Option Int :=
  let s₁ := s.dropWhile jsIsWhitespace
  let sign : Int := if s₁.head? = some '-' then -1 else 1
  let s₂ := if s₁.head? = some '-' || s₁.head? = some '+' then s₁.tail else s₁
  let digits := s₂.takeWhile Char.isDigit
  if digits = [] then none
  else some (sign * digits.foldl (fun a c => a * 10 + ((c.toNat - '0'.toNat : Nat) : Int)) 0)

/-- The data of a successful match of the `discord_timestamp` inline rule:
the parsed epoch, the style (second segment, or the default `"f"`), the
raw markup, and the parser position after the closing `>`. -/
structure TsMatch where
  epoch : Int
  style : Str
  markup : Str
  nextPos : Nat
  deriving DecidableEq, Repr

/-- The matching logic of the `discord_timestamp` inline rule, written with
the early `return false`s of the source folded into `none`: require the
literal `<t:` at the current position and a closing `>` ahead, split the
payload on `:`, `parseInt` the first segment (`NaN` → no match), and take
`parts[1] || 'f'` as the style.  `none` models the rule returning `false`,
after which markdown-it falls through to the other rules and the original
angle-bracket text is rendered literally. -/
def timestampRule (src : Str) (pos : Nat) : Option TsMatch :=
  -- `state.src.slice(start, start + 3) !== '<t:'` → no match
  if jsSlice src (pos : Int) ((pos + 3 : Nat) : Int) = str "<t:" then
    -- `const end = state.src.indexOf('>', start + 3); if (end === -1) return false`
    if jsIndexOf src '>' (pos + 3) = -1 then none
    else
      -- `content = src.slice(start + 3, end)`, `parts = content.split(':')`,
      -- `epoch = parseInt(parts[0], 10)`; `isNaN(epoch)` → no match
      match jsParseInt10 ((splitOnChar ':' (jsSlice src ((pos + 3 : Nat) : Int)
          (((jsIndexOf src '>' (pos + 3)).toNat : Nat) : Int))).headD []) with
      | none => none
      | some epoch =>
        -- `style = parts[1] || 'f'`; token markup is `src.slice(start, end + 1)`
        some ⟨epoch,
          match (splitOnChar ':' (jsSlice src ((pos + 3 : Nat) : Int)
              (((jsIndexOf src '>' (pos + 3)).toNat : Nat) : Int))).drop 1 with
          | [] => str "f"
          | second :: _ => if second = [] then str "f" else second,
          jsSlice src (pos : Int) (((jsIndexOf src '>' (pos + 3)).toNat + 1 : Nat) : Int),
          (jsIndexOf src '>' (pos + 3)).toNat + 1⟩
  else none

/-- C7: the timestamp rule matches exactly when the text at the position
starts with the literal `<t:`, a closing `>` exists ahead, and the first
colon-separated payload segment parses as a base-10 integer; and when the
second segment is absent the style defaults to `"f"`.  A failed match
(`none`) leaves the original text untouched for the other rules. -/
theorem timestampRule_spec (src : Str) (pos : Nat) :
    ((timestampRule src pos).isSome ↔
      (jsSlice src (pos : Int) ((pos + 3 : Nat) : Int) = str "<t:" ∧
       jsIndexOf src '>' (pos + 3) ≠ -1 ∧
       jsParseInt10 ((splitOnChar ':' (jsSlice src ((pos + 3 : Nat) : Int)
         (((jsIndexOf src '>' (pos + 3)).toNat : Nat) : Int))).headD []) ≠ none)) ∧
    (∀ m : TsMatch, timestampRule src pos = some m →
      (splitOnChar ':' (jsSlice src ((pos + 3 : Nat) : Int)
        (((jsIndexOf src '>' (pos + 3)).toNat : Nat) : Int))).drop 1 = [] →
      m.style = str "f") := by
  unfold timestampRule
  by_cases h1 : jsSlice src (pos : Int) ((pos + 3 : Nat) : Int) = str "<t:"
  · rw [if_pos h1]
    by_cases h2 : jsIndexOf src '>' (pos + 3) = -1
    · rw [if_pos h2]
      refine ⟨⟨fun hh => by simp at hh, ?_⟩, fun m hm => by simp at hm⟩
      rintro ⟨-, hb, -⟩
      exact absurd h2 hb
    · rw [if_neg h2]
      rcases h3 : jsParseInt10 ((splitOnChar ':' (jsSlice src ((pos + 3 : Nat) : Int)
          (((jsIndexOf src '>' (pos + 3)).toNat : Nat) : Int))).headD []) with _ | epoch
      · refine ⟨⟨fun hh => by simp at hh, ?_⟩, fun m hm => by simp at hm⟩
        rintro ⟨-, -, hc⟩
        simp [h3] at hc
      · rcases h4 : (splitOnChar ':' (jsSlice src ((pos + 3 : Nat) : Int)
            (((jsIndexOf src '>' (pos + 3)).toNat : Nat) : Int))).drop 1 with _ | ⟨second, rest⟩
        · refine ⟨iff_of_true (by simp) ⟨h1, h2, by simp [h3]⟩, ?_⟩
          intro m hm _
          have hx := Option.some_inj.mp hm
          subst hx
          simp [h4]
        · refine ⟨iff_of_true (by simp) ⟨h1, h2, by simp [h3]⟩, ?_⟩
          intro m hm habs
          simp [h4] at habs
  · rw [if_neg h1]
    refine ⟨⟨fun hh => by simp at hh, ?_⟩, fun m hm => by simp at hm⟩
    rintro ⟨ha, -, -⟩
    exact absurd ha h1

/-- Witness for C7: `"<t:5>"` at position 0 matches (all three conditions
hold), and via the default-style conjunct its style is `"f"`. -/
theorem timestampRule_spec_witness :
    (timestampRule (str "<t:5>") 0).isSome ∧
    (∀ m : TsMatch, timestampRule (str "<t:5>") 0 = some m → m.style = str "f") :=
  ⟨(timestampRule_spec (str "<t:5>") 0).1.mpr (by decide),
   fun m hm => (timestampRule_spec (str "<t:5>") 0).2 m hm (by decide)⟩

/-! ### Facts about the index and split primitives -/

theorem firstIdx_none_iff (c : Char) (s : Str) : firstIdx c s = none ↔ c ∉ s := by
  induction s with
  | nil => simp [firstIdx]
  | cons x r ih =>
    by_cases hx : x = c
    · subst hx
      simp [firstIdx]
    · simp [firstIdx, hx, Option.map_eq_none', ih, Ne.symm hx]

theorem firstIdx_some_ex (c : Char) (s : Str) (i : Nat) (h : firstIdx c s = some i) :
    ∃ A B, s = A ++ c :: B ∧ A.length = i ∧ c ∉ A := by
  induction s generalizing i with
  | nil => simp [firstIdx] at h
  | cons x r ih =>
    by_cases hx : x = c
    · subst hx
      simp [firstIdx] at h
      exact ⟨[], r, by simp, by simp [← h], by simp⟩
    · simp only [firstIdx, if_neg hx, Option.map_eq_some'] at h
      obtain ⟨j, hj, hji⟩ := h
      obtain ⟨A, B, hs, hA, hc⟩ := ih j hj
      refine ⟨x :: A, B, by simp [hs], by simp [hA, hji], ?_⟩
      simp [hc, Ne.symm hx]

theorem lastIdx_none_iff (c : Char) (s : Str) : lastIdx c s = none ↔ c ∉ s := by
  simp [lastIdx, Option.map_eq_none', firstIdx_none_iff, List.mem_reverse]

theorem lastIdx_some_ex (c : Char) (s : Str) (k : Nat) (h : lastIdx c s = some k) :
    ∃ A B, s = A ++ c :: B ∧ A.length = k := by
  unfold lastIdx at h
  rcases hfi : firstIdx c s.reverse with _ | i
  · rw [hfi] at h; cases h
  · rw [hfi] at h
    simp only [Option.map_some', Option.some.injEq] at h
    obtain ⟨A, B, hrev, hA, -⟩ := firstIdx_some_ex c s.reverse i hfi
    have hs : s = B.reverse ++ c :: A.reverse := by
      have := congrArg List.reverse hrev
      simpa using this
    have hlen : s.length = A.length + 1 + B.length := by
      have h2 := congrArg List.length hrev
      simp at h2
      omega
    exact ⟨B.reverse, A.reverse, hs, by simp; omega⟩

theorem jsIndexOf_eq_neg_one (s : Str) (c : Char) (f : Nat) (h : c ∉ s.drop f) :
    jsIndexOf s c f = -1 := by
  unfold jsIndexOf
  rw [(firstIdx_none_iff c _).mpr h]

theorem jsIndexOf_of_le (s : Str) (c : Char) (f : Nat) (h : s.length ≤ f) :
    jsIndexOf s c f = -1 :=
  jsIndexOf_eq_neg_one s c f (by rw [List.drop_eq_nil_of_le h]; simp)

theorem jsIndexOf_ne_neg_one (s : Str) (c : Char) (f : Nat) (h : jsIndexOf s c f ≠ -1) :
    ∃ A B, s = A ++ c :: B ∧ (A.length : Int) = jsIndexOf s c f ∧ f ≤ A.length := by
  rcases hfi : firstIdx c (s.drop f) with _ | i
  · exfalso
    apply h
    unfold jsIndexOf
    rw [hfi]
  · have hval : jsIndexOf s c f = ((f + i : Nat) : Int) := by
      unfold jsIndexOf
      rw [hfi]
    obtain ⟨A', B, hdrop, hA', -⟩ := firstIdx_some_ex c (s.drop f) i hfi
    have hf : f ≤ s.length := by
      by_contra hc
      rw [List.drop_eq_nil_of_le (by omega)] at hdrop
      exact List.cons_ne_nil c B (by simpa using hdrop.symm)
    refine ⟨s.take f ++ A', B, ?_, ?_, ?_⟩
    · conv_lhs => rw [← List.take_append_drop f s]
      rw [hdrop, List.append_assoc]
    · rw [hval]
      simp [hA', Nat.min_eq_left hf]
    · simp [Nat.min_eq_left hf]

theorem jsIndexOf_append_cons (u v : Str) (c : Char) :
    jsIndexOf (u ++ c :: v) c u.length = u.length := by
  unfold jsIndexOf
  rw [List.drop_left]
  simp [firstIdx]

theorem jsLastIndexOf_ge (s : Str) (c : Char) (f : Int) : -1 ≤ jsLastIndexOf s c f := by
  unfold jsLastIndexOf
  rcases lastIdx c (s.take (min f.toNat s.length + 1)) with _ | k <;> simp <;> omega

theorem jsLastIndexOf_neg_one_iff (s : Str) (c : Char) (f : Int) :
    jsLastIndexOf s c f = -1 ↔ c ∉ s.take (min f.toNat s.length + 1) := by
  rcases h : lastIdx c (s.take (min f.toNat s.length + 1)) with _ | k
  · have hval : jsLastIndexOf s c f = -1 := by
      unfold jsLastIndexOf
      rw [h]
    exact iff_of_true hval ((lastIdx_none_iff c _).mp h)
  · have hval : jsLastIndexOf s c f = (k : Int) := by
      unfold jsLastIndexOf
      rw [h]
    rw [hval]
    refine iff_of_false (by omega) ?_
    obtain ⟨A, B, hs, -⟩ := lastIdx_some_ex c _ k h
    rw [hs]
    simp

theorem jsLastIndexOf_ne_neg_one (s : Str) (c : Char) (f : Int)
    (h : jsLastIndexOf s c f ≠ -1) :
    ∃ A B, s = A ++ c :: B ∧ (A.length : Int) = jsLastIndexOf s c f ∧
      A.length ≤ min f.toNat s.length := by
  rcases hli : lastIdx c (s.take (min f.toNat s.length + 1)) with _ | k
  · exfalso
    apply h
    unfold jsLastIndexOf
    rw [hli]
  · have hval : jsLastIndexOf s c f = (k : Int) := by
      unfold jsLastIndexOf
      rw [hli]
    obtain ⟨A, B', htake, hA⟩ := lastIdx_some_ex c _ k hli
    have hAlen : A.length ≤ min f.toNat s.length := by
      have h2 := congrArg List.length htake
      simp at h2
      omega
    refine ⟨A, B' ++ s.drop (min f.toNat s.length + 1), ?_, by rw [hval, hA], hAlen⟩
    conv_lhs => rw [← List.take_append_drop (min f.toNat s.length + 1) s]
    rw [htake, List.append_assoc]
    rfl

theorem jsLastIndexOf_append_cons (w v : Str) (c : Char) :
    jsLastIndexOf (w ++ c :: v) c ((w.length : Nat) : Int) = w.length := by
  unfold jsLastIndexOf
  have hmin : min ((w.length : Nat) : Int).toNat (w ++ c :: v).length = w.length := by
    simp
  rw [hmin, List.take_append, show ((c :: v).take 1) = [c] from rfl]
  have : lastIdx c (w ++ [c]) = some w.length := by
    unfold lastIdx
    rw [show (w ++ [c]).reverse = c :: w.reverse by simp]
    simp [firstIdx]
  rw [this]

theorem splitOnChar_ne_nil (c : Char) (s : Str) : splitOnChar c s ≠ [] := by
  cases s with
  | nil => simp [splitOnChar]
  | cons x r =>
    simp only [splitOnChar]
    split
    · simp
    · rcases h : splitOnChar c r with _ | ⟨l, ls⟩ <;> simp

theorem joinWith_cons_cons (c : Char) (l l₂ : Str) (ls : List Str) :
    joinWith c (l :: l₂ :: ls) = l ++ c :: joinWith c (l₂ :: ls) := rfl

theorem joinWith_splitOnChar (c : Char) (s : Str) : joinWith c (splitOnChar c s) = s := by
  induction s with
  | nil => rfl
  | cons x r ih =>
    rcases h : splitOnChar c r with _ | ⟨l, ls⟩
    · exact absurd h (splitOnChar_ne_nil c r)
    · rw [h] at ih
      by_cases hx : x = c
      · subst hx
        rw [show splitOnChar x (x :: r) = [] :: l :: ls by rw [splitOnChar, if_pos rfl, h]]
        rw [joinWith_cons_cons, ih]
        rfl
      · rw [show splitOnChar c (x :: r) = (x :: l) :: ls by
          rw [splitOnChar, if_neg hx, h]]
        cases ls with
        | nil =>
          show x :: l = x :: r
          rw [show joinWith c [l] = l from rfl] at ih
          rw [ih]
        | cons l₂ ls₂ =>
          rw [joinWith_cons_cons]
          rw [joinWith_cons_cons] at ih
          show x :: (l ++ c :: joinWith c (l₂ :: ls₂)) = x :: r
          rw [ih]

theorem not_mem_splitOnChar (c : Char) (s : Str) : ∀ l ∈ splitOnChar c s, c ∉ l := by
  induction s with
  | nil =>
    intro l hl
    simp [splitOnChar] at hl
    simp [hl]
  | cons x r ih =>
    intro l hl
    rcases h : splitOnChar c r with _ | ⟨l₁, ls⟩
    · exact absurd h (splitOnChar_ne_nil c r)
    · by_cases hx : x = c
      · subst hx
        rw [show splitOnChar x (x :: r) = [] :: l₁ :: ls by
          rw [splitOnChar, if_pos rfl, h]] at hl
        rcases List.mem_cons.mp hl with h1 | h2
        · simp [h1]
        · exact ih l (h ▸ h2)
      · rw [show splitOnChar c (x :: r) = (x :: l₁) :: ls by
          rw [splitOnChar, if_neg hx, h]] at hl
        rcases List.mem_cons.mp hl with h1 | h2
        · subst h1
          have hl₁ : c ∉ l₁ := ih l₁ (h ▸ List.mem_cons_self l₁ ls)
          simp [Ne.symm hx, hl₁]
        · exact ih l (h ▸ List.mem_cons.mpr (Or.inr h2))

theorem splitOnChar_no_sep (c : Char) (l : Str) (h : c ∉ l) : splitOnChar c l = [l] := by
  induction l with
  | nil => rfl
  | cons x r ih =>
    have hx : x ≠ c := fun hh => h (hh ▸ List.mem_cons_self x r)
    have hr : c ∉ r := fun hh => h (List.mem_cons.mpr (Or.inr hh))
    rw [splitOnChar, if_neg hx, ih hr]

theorem splitOnChar_append_cons (c : Char) (l t : Str) (hl : c ∉ l) :
    splitOnChar c (l ++ c :: t) = l :: splitOnChar c t := by
  induction l with
  | nil =>
    show splitOnChar c (c :: t) = [] :: splitOnChar c t
    rw [splitOnChar, if_pos rfl]
  | cons x r ih =>
    have hx : x ≠ c := fun hh => hl (hh ▸ List.mem_cons_self x r)
    have hr : c ∉ r := fun hh => hl (List.mem_cons.mpr (Or.inr hh))
    show splitOnChar c (x :: (r ++ c :: t)) = (x :: r) :: splitOnChar c t
    rw [splitOnChar, if_neg hx, ih hr]

theorem splitOnChar_joinWith (c : Char) (ls : List Str) (hne : ls ≠ [])
    (h : ∀ l ∈ ls, c ∉ l) : splitOnChar c (joinWith c ls) = ls := by
  induction ls with
  | nil => exact absurd rfl hne
  | cons l ls ih =>
    cases ls with
    | nil =>
      show splitOnChar c l = [l]
      exact splitOnChar_no_sep c l (h l (List.mem_cons_self l []))
    | cons l₂ ls₂ =>
      rw [joinWith_cons_cons,
        splitOnChar_append_cons c l _ (h l (List.mem_cons_self l _)),
        ih (by simp) (fun x hx => h x (List.mem_cons.mpr (Or.inr hx)))]

theorem length_joinWith (c : Char) (ls : List Str) :
    (joinWith c ls).length = (ls.map List.length).sum + (ls.length - 1) := by
  induction ls with
  | nil => rfl
  | cons l ls ih =>
    cases ls with
    | nil => simp [joinWith]
    | cons l₂ ls₂ =>
      rw [joinWith_cons_cons]
      simp only [List.length_append, List.length_cons, ih, List.map_cons, List.sum_cons,
        List.length_cons]
      omega

theorem strip_lines_sum (pws : Str) (ls : List Str) :
    ((ls.map (stripLine pws)).map List.length).sum +
      pws.length * (ls.filter fun l => pws.isPrefixOf l).length = (ls.map List.length).sum := by
  induction ls with
  | nil => rfl
  | cons l ls ih =>
    cases hp : pws.isPrefixOf l
    · simp [stripLine, hp]
      rw [List.map_map] at ih
      omega
    · have hle : pws.length ≤ l.length :=
        ((List.isPrefixOf_iff_prefix.mp hp).length_le)
      simp [stripLine, hp]
      rw [List.map_map] at ih
      rw [Nat.mul_add, Nat.mul_one]
      omega

theorem add_lines_sum (pws : Str) (ls : List Str) :
    ((ls.map (addLine pws)).map List.length).sum =
      (ls.map List.length).sum + pws.length * (ls.filter fun l => !(isBlank l)).length := by
  induction ls with
  | nil => rfl
  | cons l ls ih =>
    cases hb : isBlank l
    · simp [addLine, hb]
      rw [List.map_map] at ih
      rw [Nat.mul_add, Nat.mul_one]
      omega
    · simp [addLine, hb]
      rw [List.map_map] at ih
      omega

/-! ### Structure of the expanded full-line region -/

theorem actualEndOf_le (text : Str) (e : Nat) : actualEndOf text e ≤ text.length := by
  unfold actualEndOf
  split
  · exact le_refl _
  · next h =>
    obtain ⟨A, B, hs, hval, -⟩ := jsIndexOf_ne_neg_one text '\n' e h
    have hlen : text.length = A.length + 1 + B.length := by
      rw [hs]; simp; omega
    omega

theorem le_actualEndOf (text : Str) (e : Nat) (hlen : e ≤ text.length) :
    e ≤ actualEndOf text e := by
  unfold actualEndOf
  split
  · exact hlen
  · next h =>
    obtain ⟨A, B, -, hval, hge⟩ := jsIndexOf_ne_neg_one text '\n' e h
    omega

/-- When the region end falls short of the text, a newline sits exactly
there. -/
theorem actualEndOf_lt (text : Str) (e : Nat) (h : actualEndOf text e < text.length) :
    ∃ A B, text = A ++ '\n' :: B ∧ A.length = actualEndOf text e := by
  revert h
  unfold actualEndOf
  split
  · intro h; omega
  · next hni =>
    intro _
    obtain ⟨A, B, hs, hval, -⟩ := jsIndexOf_ne_neg_one text '\n' e hni
    exact ⟨A, B, hs, by omega⟩

theorem lineStartOf_le (text : Str) (s : Nat) (hs : 1 ≤ s) : lineStartOf text s ≤ s := by
  unfold lineStartOf
  rcases eq_or_ne (jsLastIndexOf text '\n' ((s : Int) - 1)) (-1) with h | h
  · rw [h]; simp
  · obtain ⟨A, B, -, hval, hle⟩ := jsLastIndexOf_ne_neg_one text '\n' _ h
    have ht : ((s : Int) - 1).toNat = s - 1 := by omega
    rw [ht] at hle
    omega

theorem lineStartOf_zero_le_one (text : Str) : lineStartOf text 0 ≤ 1 := by
  unfold lineStartOf
  rcases eq_or_ne (jsLastIndexOf text '\n' ((0 : Nat) - 1 : Int)) (-1) with h | h
  · rw [h]; simp
  · obtain ⟨A, B, -, hval, hle⟩ := jsLastIndexOf_ne_neg_one text '\n' _ h
    have ht : (((0 : Nat) : Int) - 1).toNat = 0 := by omega
    rw [ht] at hle
    omega

theorem lineStartOf_le_length (text : Str) (s : Nat) : lineStartOf text s ≤ text.length := by
  unfold lineStartOf
  rcases eq_or_ne (jsLastIndexOf text '\n' ((s : Int) - 1)) (-1) with h | h
  · rw [h]; simp
  · obtain ⟨A, B, hs, hval, -⟩ := jsLastIndexOf_ne_neg_one text '\n' _ h
    have hlen : text.length = A.length + 1 + B.length := by rw [hs]; simp; omega
    omega

/-- A positive line start sits right after a newline. -/
theorem lineStartOf_pos (text : Str) (s : Nat) (h : 1 ≤ lineStartOf text s) :
    ∃ A B, text = A ++ '\n' :: B ∧ A.length + 1 = lineStartOf text s := by
  revert h
  unfold lineStartOf
  rcases eq_or_ne (jsLastIndexOf text '\n' ((s : Int) - 1)) (-1) with h | h
  · rw [h]; intro hh; simp at hh
  · intro _
    obtain ⟨A, B, hs, hval, -⟩ := jsLastIndexOf_ne_neg_one text '\n' _ h
    exact ⟨A, B, hs, by omega⟩

/-- A zero line start means the text does not begin with a newline. -/
theorem lineStartOf_eq_zero (text : Str) (s : Nat) (h : lineStartOf text s = 0) :
    '\n' ∉ text.take 1 := by
  have hge := jsLastIndexOf_ge text '\n' ((s : Int) - 1)
  have hneg : jsLastIndexOf text '\n' ((s : Int) - 1) = -1 := by
    unfold lineStartOf at h
    omega
  have hnotin := (jsLastIndexOf_neg_one_iff text '\n' ((s : Int) - 1)).mp hneg
  intro hmem
  apply hnotin
  have h1 : text.take 1 = (text.take (min ((s : Int) - 1).toNat text.length + 1)).take 1 := by
    rw [List.take_take, Nat.min_eq_left (by omega)]
  exact List.take_subset _ _ (h1 ▸ hmem)

theorem lineStartOf_le_actualEndOf (text : Str) (s e : Nat) (hse : s ≤ e)
    (hlen : e ≤ text.length) (hq : ¬(s = 0 ∧ e = 0 ∧ text.head? = some '\n')) :
    lineStartOf text s ≤ actualEndOf text e := by
  rcases Nat.eq_zero_or_pos s with hs0 | hs1
  · subst hs0
    rcases Nat.eq_zero_or_pos e with he0 | he1
    · subst he0
      have hhd : text.head? ≠ some '\n' := fun hh => hq ⟨rfl, rfl, hh⟩
      suffices h : lineStartOf text 0 = 0 by omega
      by_contra hc
      obtain ⟨A, B, hs, hA⟩ := lineStartOf_pos text 0 (by omega)
      have h1 := lineStartOf_zero_le_one text
      have hA0 : A = [] := List.length_eq_zero.mp (by omega)
      subst hA0
      exact hhd (by rw [hs]; rfl)
    · have h1 := lineStartOf_zero_le_one text
      have h2 := le_actualEndOf text e hlen
      omega
  · have h1 := lineStartOf_le text s hs1
    have h2 := le_actualEndOf text e hlen
    omega

/-! ### C5: the WrapResult invariant -/

/-- The WrapResult invariant of the data model:
`selection.start ≤ selection.end ≤ length(text)`. -/
abbrev wrapInvariant (r : WrapResult) : Prop :=
  r.selection.start ≤ r.selection.«end» ∧ r.selection.«end» ≤ r.text.length

/-- The line accounting of the expanded region: the line lengths plus the
separators give the region length. -/
theorem region_sum (text : Str) (s e : Nat)
    (hna : lineStartOf text s ≤ actualEndOf text e) :
    ((regionLines text s e).map List.length).sum + ((regionLines text s e).length - 1) =
      actualEndOf text e - lineStartOf text s ∧ 1 ≤ (regionLines text s e).length := by
  have hal := actualEndOf_le text e
  have hsel : jsSlice text ((lineStartOf text s : Nat) : Int)
      ((actualEndOf text e : Nat) : Int) =
      (text.take (actualEndOf text e)).drop (lineStartOf text s) :=
    jsSlice_of_le text _ _ (le_trans hna hal) hal
  have hlen1 : ((text.take (actualEndOf text e)).drop (lineStartOf text s)).length =
      actualEndOf text e - lineStartOf text s := by
    simp [Nat.min_eq_left hal]
  have hjoin := joinWith_splitOnChar '\n'
    ((text.take (actualEndOf text e)).drop (lineStartOf text s))
  have hcnt : 1 ≤ (regionLines text s e).length :=
    Nat.one_le_iff_ne_zero.mpr (fun hh =>
      splitOnChar_ne_nil '\n' _ (List.length_eq_zero.mp hh))
  refine ⟨?_, hcnt⟩
  have h2 := length_joinWith '\n' (regionLines text s e)
  unfold regionLines at *
  rw [hsel] at *
  rw [hjoin] at h2
  omega

/-- Packaging lemma for the invariant at a literal result. -/
theorem wrapInvariant_mk (T : Str) (a b : Nat) (h1 : a ≤ b) (h2 : b ≤ T.length) :
    wrapInvariant ⟨T, ⟨a, b⟩⟩ :=
  ⟨h1, h2⟩

/-- C5 (amended): every Selection Transform Engine function keeps the
WrapResult invariant on the domain `0 ≤ start ≤ end ≤ length(text)`,
with the token arguments of the two wrap toggles non-empty, and excluding
for `toggleBlockPrefix` the degenerate corner `start = end = 0` on a text
beginning with a newline.  Totality (the "never throws" part) holds by
construction: every embedded function is a total Lean function. -/
theorem selectionEngine_invariant (text : Str) (s e : Nat)
    (token startToken endToken ins lang pfx url : Str)
    (hse : s ≤ e) (hlen : e ≤ text.length) :
    (token ≠ [] → wrapInvariant (toggleWrap text s e token)) ∧
    (startToken ≠ [] → endToken ≠ [] →
      wrapInvariant (toggleWrapAsymmetric text s e startToken endToken)) ∧
    wrapInvariant (insertAt text s ins) ∧
    wrapInvariant (toggleCodeBlock text s e lang) ∧
    (¬(s = 0 ∧ e = 0 ∧ text.head? = some '\n') →
      wrapInvariant (toggleBlockPrefix text s e pfx)) ∧
    wrapInvariant (insertMaskedLink text s e url) := by
  have hsl : s ≤ text.length := le_trans hse hlen
  have hselen : ((text.take e).drop s).length = e - s := by
    simp [Nat.min_eq_left hlen]
  refine ⟨?_, ?_, ?_, ?_, ?_, ?_⟩
  -- toggleWrap
  · intro htok
    have hL : 1 ≤ token.length := List.length_pos.mpr htok
    unfold toggleWrap
    rw [jsSlice_zero text s hsl, jsSlice_of_le text s e hsl hlen, jsSlice_to_len text e]
    by_cases hA : (List.isSuffixOf token (text.take s) &&
        List.isPrefixOf token (text.drop e)) = true
    · rw [if_pos hA]
      rw [Bool.and_eq_true, List.isSuffixOf_iff_suffix, List.isPrefixOf_iff_prefix] at hA
      obtain ⟨hsuf, hpre⟩ := hA
      have hLs : token.length ≤ s := by
        have h1 := hsuf.length_le
        simp [Nat.min_eq_left hsl] at h1
        exact h1
      have hLe : token.length ≤ text.length - e := by
        have h1 := hpre.length_le
        simp at h1
        omega
      have h1 : (jsSlice (text.take s) 0 (-(token.length : Int))).length =
          s - token.length := by
        rw [jsSlice_zero_neg, if_neg (by omega)]
        simp [Nat.min_eq_left hsl]
      have h2 : (jsSlice (text.drop e) (token.length : Int)
          (((text.drop e).length : Nat) : Int)).length =
          (text.length - e) - token.length := by
        rw [jsSlice_to_len]
        simp
        omega
      refine wrapInvariant_mk _ _ _ (by omega) ?_
      rw [List.length_append, List.length_append, h1, h2, hselen]
      omega
    · rw [if_neg hA]
      by_cases hB : (List.isPrefixOf token ((text.take e).drop s) &&
          List.isSuffixOf token ((text.take e).drop s) &&
          decide (token.length * 2 ≤ ((text.take e).drop s).length)) = true
      · rw [if_pos hB]
        rw [Bool.and_eq_true, Bool.and_eq_true, decide_eq_true_eq] at hB
        obtain ⟨⟨-, -⟩, h2L⟩ := hB
        rw [hselen] at h2L
        have h3 : (jsSlice ((text.take e).drop s) (token.length : Int)
            (-(token.length : Int))).length = (e - s) - 2 * token.length := by
          rw [jsSlice_neg_end _ _ _ hL, Nat.min_eq_left (by rw [hselen]; omega)]
          simp [hselen]
          omega
        refine wrapInvariant_mk _ _ _ (by omega) ?_
        rw [List.length_append, List.length_append, h3]
        simp [Nat.min_eq_left hsl]
        all_goals omega
      · rw [if_neg hB]
        refine wrapInvariant_mk _ _ _ (by omega) ?_
        simp [Nat.min_eq_left hsl, hselen]
        all_goals omega
  -- toggleWrapAsymmetric
  · intro hst het
    have hLs1 : 1 ≤ startToken.length := List.length_pos.mpr hst
    have hLe1 : 1 ≤ endToken.length := List.length_pos.mpr het
    unfold toggleWrapAsymmetric
    rw [jsSlice_zero text s hsl, jsSlice_of_le text s e hsl hlen, jsSlice_to_len text e]
    by_cases hA : (List.isSuffixOf startToken (text.take s) &&
        List.isPrefixOf endToken (text.drop e)) = true
    · rw [if_pos hA]
      rw [Bool.and_eq_true, List.isSuffixOf_iff_suffix, List.isPrefixOf_iff_prefix] at hA
      obtain ⟨hsuf, hpre⟩ := hA
      have hLs : startToken.length ≤ s := by
        have h1 := hsuf.length_le
        simp [Nat.min_eq_left hsl] at h1
        exact h1
      have hLe : endToken.length ≤ text.length - e := by
        have h1 := hpre.length_le
        simp at h1
        omega
      have h1 : (jsSlice (text.take s) 0 (-(startToken.length : Int))).length =
          s - startToken.length := by
        rw [jsSlice_zero_neg, if_neg (by omega)]
        simp [Nat.min_eq_left hsl]
      have h2 : (jsSlice (text.drop e) (endToken.length : Int)
          (((text.drop e).length : Nat) : Int)).length =
          (text.length - e) - endToken.length := by
        rw [jsSlice_to_len]
        simp
        omega
      refine wrapInvariant_mk _ _ _ (by omega) ?_
      rw [List.length_append, List.length_append, h1, h2, hselen]
      all_goals omega
    · rw [if_neg hA]
      refine wrapInvariant_mk _ _ _ (by omega) ?_
      simp [Nat.min_eq_left hsl, hselen]
      all_goals omega
  -- insertAt
  · unfold insertAt
    rw [jsSlice_zero text s hsl, jsSlice_to_len text s]
    refine wrapInvariant_mk _ _ _ (le_refl _) ?_
    simp [Nat.min_eq_left hsl]
  -- toggleCodeBlock
  · unfold toggleCodeBlock
    rw [jsSlice_zero text s hsl, jsSlice_of_le text s e hsl hlen, jsSlice_to_len text e]
    refine wrapInvariant_mk _ _ _ (by omega) ?_
    simp [Nat.min_eq_left hsl, hselen, str]
    omega
  -- toggleBlockPrefix
  · intro hq
    have hna := lineStartOf_le_actualEndOf text s e hse hlen hq
    have hal := actualEndOf_le text e
    have hnl : lineStartOf text s ≤ text.length := le_trans hna hal
    obtain ⟨hsum, hcnt⟩ := region_sum text s e hna
    unfold toggleBlockPrefix
    set rl := regionLines text s e with hrl
    set pws := pfx ++ [' '] with hpws
    split
    · -- strip branch
      have hstrip := strip_lines_sum pws rl
      have hnew := length_joinWith '\n' (rl.map (stripLine pws))
      rw [List.length_map] at hnew
      refine wrapInvariant_mk _ _ _ (by omega) ?_
      rw [jsSlice_zero text _ hnl, jsSlice_to_len text _]
      simp only [List.length_append, List.length_take, List.length_drop]
      rw [hnew, Nat.min_eq_left hnl]
      omega
    · -- add branch
      have hadd := add_lines_sum pws rl
      have hnew := length_joinWith '\n' (rl.map (addLine pws))
      rw [List.length_map] at hnew
      refine wrapInvariant_mk _ _ _ (by omega) ?_
      rw [jsSlice_zero text _ hnl, jsSlice_to_len text _]
      simp only [List.length_append, List.length_take, List.length_drop]
      rw [hnew, Nat.min_eq_left hnl]
      omega
  -- insertMaskedLink
  · simp only [insertMaskedLink, jsSlice_zero text s hsl, jsSlice_of_le text s e hsl hlen,
      jsSlice_to_len text e]
    by_cases hurl : url = str "url"
    · rw [if_pos hurl, if_pos hurl]
      refine wrapInvariant_mk _ _ _ (by omega) ?_
      by_cases hempty : (text.take e).drop s = []
      · rw [if_pos hempty]
        have he0 : e - s = 0 := by rw [← hselen, hempty]; rfl
        simp [Nat.min_eq_left hsl, str]
        all_goals omega
      · rw [if_neg hempty]
        simp [Nat.min_eq_left hsl, hselen, str]
        all_goals omega
    · rw [if_neg hurl, if_neg hurl]
      refine wrapInvariant_mk _ _ _ (by omega) ?_
      by_cases hempty : (text.take e).drop s = []
      · rw [if_pos hempty]
        simp [Nat.min_eq_left hsl, str]
      · rw [if_neg hempty]
        simp [Nat.min_eq_left hsl, hselen, str]

/-- Counterexample to C5 as stated: `toggleBlockPrefix("\n", 0, 0, ">")` is
an in-domain call (0 ≤ 0 ≤ 0 ≤ 1) whose result has `selection.start = 1 >
selection.end = 0`, violating the invariant (the ECMAScript clamp of
`lastIndexOf('\n', -1)` to position 0 finds the leading newline). -/
theorem selectionEngine_invariant_cex :
    ¬ wrapInvariant (toggleBlockPrefix (str "\n") 0 0 (str ">")) := by decide

/-- Witness for C5: all six functions at concrete in-domain inputs. -/
theorem selectionEngine_invariant_witness :
    wrapInvariant (toggleWrap (str "ab") 0 1 (str "*")) ∧
    wrapInvariant (toggleWrapAsymmetric (str "ab") 0 1 (str "[") (str "]")) ∧
    wrapInvariant (insertAt (str "ab") 0 (str "x")) ∧
    wrapInvariant (toggleCodeBlock (str "ab") 0 1 (str "js")) ∧
    wrapInvariant (toggleBlockPrefix (str "ab") 0 1 (str ">")) ∧
    wrapInvariant (insertMaskedLink (str "ab") 0 1 (str "url")) := by
  obtain ⟨h1, h2, h3, h4, h5, h6⟩ := selectionEngine_invariant (str "ab") 0 1
    (str "*") (str "[") (str "]") (str "x") (str "js") (str ">") (str "url")
    (by decide) (by decide)
  exact ⟨h1 (by decide), h2 (by decide) (by decide), h3, h4, h5 (by decide), h6⟩

/-! ### C9: the block-prefix round trip -/

theorem splitOnChar_cons_ne (c x : Char) (r : Str) (hx : x ≠ c) :
    ∃ l ls, splitOnChar c r = l :: ls ∧ splitOnChar c (x :: r) = (x :: l) :: ls := by
  rcases h : splitOnChar c r with _ | ⟨l, ls⟩
  · exact absurd h (splitOnChar_ne_nil c r)
  · exact ⟨l, ls, rfl, by rw [splitOnChar, if_neg hx, h]⟩

theorem joinWith_head_ne_nil (c : Char) (y : Str) (ys : List Str) (hy : y ≠ []) :
    (joinWith c (y :: ys)).head? = y.head? := by
  cases ys with
  | nil => rfl
  | cons y₂ ys₂ =>
    rcases y with _ | ⟨c₀, y'⟩
    · exact absurd rfl hy
    · rw [joinWith_cons_cons]
      rfl

theorem lineStartOf_zero_of_head (t : Str) (h : '\n' ∉ t.take 1) : lineStartOf t 0 = 0 := by
  unfold lineStartOf
  have hni : jsLastIndexOf t '\n' (((0 : Nat) : Int) - 1) = -1 := by
    rw [jsLastIndexOf_neg_one_iff]
    simpa using h
  rw [hni]
  rfl

theorem lineStartOf_after_newline (t A B : Str) (ht : t = A ++ '\n' :: B) :
    lineStartOf t (A.length + 1) = A.length + 1 := by
  unfold lineStartOf
  have hcast : ((A.length + 1 : Nat) : Int) - 1 = ((A.length : Nat) : Int) := by
    push_cast
    ring
  rw [ht, hcast, jsLastIndexOf_append_cons]
  simp

theorem isBlank_of_prefix (p l : Str) (hpl : p <+: l) (hb : isBlank l = true) :
    isBlank p = true := by
  rw [isBlank, List.all_eq_true] at hb ⊢
  exact fun x hx => hb x (hpl.sublist.mem hx)

theorem not_mem_take_one (c : Char) (l : Str) (h : l.head? ≠ some c) : c ∉ l.take 1 := by
  cases l with
  | nil => simp
  | cons x r =>
    simp only [List.take_succ_cons, List.take_zero, List.mem_singleton]
    intro hc
    subst hc
    exact h rfl

/-- The strip application after an add application: applied to the text
`T2` produced by the add branch, with the add-branch selection, the strip
branch fires and returns the original text.  The hypotheses record where
`n` and `a` sit relative to the newlines of the original text (they hold
for `lineStartOf`/`actualEndOf`), and that some region line is not blank
(the add branch fired). -/
theorem toggleBlockPrefix_strips_back (text T2 : Str) (n a : Nat) (pfx : Str)
    (rl : List Str)
    (hnl : '\n' ∉ pfx) (hpb : isBlank pfx = false)
    (hna : n ≤ a) (hal : a ≤ text.length)
    (hrl : rl = splitOnChar '\n' ((text.take a).drop n))
    (hT2 : T2 = text.take n ++
      (joinWith '\n' (rl.map (addLine (pfx ++ [' ']))) ++ text.drop a))
    (hn0 : n = 0 → '\n' ∉ text.take 1)
    (hn1 : 1 ≤ n → ∃ A B, text = A ++ '\n' :: B ∧ A.length + 1 = n)
    (ha : a < text.length → ∃ A B, text = A ++ '\n' :: B ∧ A.length = a)
    (hex : ∃ l ∈ rl, isBlank l = false) :
    (toggleBlockPrefix T2 n
      (a + (pfx ++ [' ']).length *
        (rl.filter fun l => !(isBlank l)).length) pfx).text = text := by
  have hpfx_ne : pfx ≠ [] := by
    intro hc
    rw [hc] at hpb
    simp [isBlank] at hpb
  have hpws_nl : '\n' ∉ pfx ++ [' '] := by
    simp [hnl]
  have hpws_nb : isBlank (pfx ++ [' ']) = false := by
    rw [isBlank, List.all_append]
    rw [isBlank] at hpb
    rw [hpb]
    rfl
  have hnl2 : n ≤ text.length := le_trans hna hal
  have hlb : (text.take n).length = n := by simp [Nat.min_eq_left hnl2]
  have hreglen : ((text.take a).drop n).length = a - n := by
    simp [Nat.min_eq_left hal]
  have hrl_ne : rl ≠ [] := by rw [hrl]; exact splitOnChar_ne_nil _ _
  have hrl_nosep : ∀ l ∈ rl, '\n' ∉ l := by
    rw [hrl]; exact not_mem_splitOnChar _ _
  have hjoin_rl : joinWith '\n' rl = (text.take a).drop n := by
    rw [hrl]; exact joinWith_splitOnChar _ _
  have hsum : (rl.map List.length).sum + (rl.length - 1) = a - n := by
    have h2 := length_joinWith '\n' rl
    rw [hjoin_rl, hreglen] at h2
    omega
  have hcnt : 1 ≤ rl.length := by
    rcases rl with _ | ⟨l, ls⟩
    · exact absurd rfl hrl_ne
    · simp
  have haddsum := add_lines_sum (pfx ++ [' ']) rl
  have hNL_nosep : ∀ l ∈ rl.map (addLine (pfx ++ [' '])), '\n' ∉ l := by
    intro l hl
    obtain ⟨m, hm, rfl⟩ := List.mem_map.mp hl
    unfold addLine
    split
    · simp [hnl, hrl_nosep m hm]
    · exact hrl_nosep m hm
  have hNL_ne : rl.map (addLine (pfx ++ [' '])) ≠ [] := by
    simp [hrl_ne]
  have hsplitNS : splitOnChar '\n' (joinWith '\n' (rl.map (addLine (pfx ++ [' '])))) =
      rl.map (addLine (pfx ++ [' '])) :=
    splitOnChar_joinWith '\n' _ hNL_ne hNL_nosep
  have hNSlen : (joinWith '\n' (rl.map (addLine (pfx ++ [' '])))).length =
      (a - n) + (pfx ++ [' ']).length * (rl.filter fun l => !(isBlank l)).length := by
    rw [length_joinWith, List.length_map]
    omega
  have hT2len : T2.length = text.length +
      (pfx ++ [' ']).length * (rl.filter fun l => !(isBlank l)).length := by
    rw [hT2]
    simp only [List.length_append, hlb, hNSlen, List.length_drop]
    omega
  have hD1 : 1 ≤ (rl.filter fun l => !(isBlank l)).length := by
    obtain ⟨l, hl, hbl⟩ := hex
    have : l ∈ rl.filter fun l => !(isBlank l) :=
      List.mem_filter.mpr ⟨hl, by simp [hbl]⟩
    calc 1 ≤ 1 := le_refl 1
    _ ≤ _ := List.length_pos.mpr (List.ne_nil_of_mem this)
  have ha1 : 1 ≤ a := by
    by_contra hc
    have ha0 : a = 0 := by omega
    have hreg0 : (text.take a).drop n = [] := by
      rw [ha0]
      simp
    rw [hreg0] at hrl
    obtain ⟨l, hl, hbl⟩ := hex
    rw [hrl] at hl
    simp [splitOnChar] at hl
    rw [hl] at hbl
    simp [isBlank] at hbl
  -- the second region start
  have h_n2 : lineStartOf T2 n = n := by
    rcases Nat.eq_zero_or_pos n with h0 | hpos
    · rw [h0]
      apply lineStartOf_zero_of_head
      have hhd := hn0 h0
      rcases htext : text with _ | ⟨x, t'⟩
      · rw [htext] at hal
        simp at hal
        omega
      · have hx : x ≠ '\n' := by
          rw [htext] at hhd
          simp at hhd
          exact fun hc => hhd hc.symm
        have hregion : (text.take a).drop n = x :: (t'.take (a - 1)) := by
          rcases Nat.exists_eq_add_of_le ha1 with ⟨k, hk⟩
          have hk1 : a = k + 1 := by omega
          rw [h0, htext, List.drop_zero, hk1, List.take_succ_cons]
          simp
        obtain ⟨l, ls, hsp1, hsp2⟩ := splitOnChar_cons_ne '\n' x (t'.take (a - 1)) hx
        have hrl2 : rl = (x :: l) :: ls := by rw [hrl, hregion, hsp2]
        have hheadNS : (joinWith '\n' (rl.map (addLine (pfx ++ [' '])))).head? ≠
            some '\n' := by
          rw [hrl2, List.map_cons]
          rw [joinWith_head_ne_nil]
          · unfold addLine
            split
            · rcases pfx with _ | ⟨p₀, pfx'⟩
              · exact absurd rfl hpfx_ne
              · simp only [List.cons_append, List.head?_cons]
                intro hc
                exact hpws_nl (by
                  rw [← Option.some.inj hc]
                  exact List.mem_append_left _ (List.mem_cons_self _ _))
            · simp only [List.head?_cons]
              intro hc
              exact hx (Option.some.inj hc)
          · unfold addLine
            split
            · simp
            · simp
        rw [hT2, h0]
        simp only [List.take_zero, List.nil_append]
        apply not_mem_take_one
        rcases hNS : joinWith '\n' (rl.map (addLine (pfx ++ [' ']))) with _ | ⟨c₀, NS'⟩
        · rw [hNS] at hNSlen
          simp at hNSlen
          have := hpws_nl
          omega
        · rw [hNS] at hheadNS
          simp only [List.cons_append, List.head?_cons]
          exact hheadNS
    · obtain ⟨A, B, htext, hA⟩ := hn1 hpos
      have htakeN : text.take n = A ++ ['\n'] := by
        rw [htext, ← hA, List.take_append]
        rfl
      rw [hT2, htakeN, ← hA]
      have hassoc : (A ++ ['\n']) ++
          (joinWith '\n' (rl.map (addLine (pfx ++ [' ']))) ++ text.drop a) =
          A ++ '\n' :: (joinWith '\n' (rl.map (addLine (pfx ++ [' ']))) ++ text.drop a) := by
        simp
      rw [hassoc]
      exact lineStartOf_after_newline _ A _ rfl
  -- the second region end
  have h_a2 : actualEndOf T2
      (a + (pfx ++ [' ']).length * (rl.filter fun l => !(isBlank l)).length) =
      n + (joinWith '\n' (rl.map (addLine (pfx ++ [' '])))).length := by
    have hm : n + (joinWith '\n' (rl.map (addLine (pfx ++ [' '])))).length =
        a + (pfx ++ [' ']).length * (rl.filter fun l => !(isBlank l)).length := by
      rw [hNSlen]
      omega
    rcases lt_or_eq_of_le hal with hlt | heq
    · obtain ⟨A, B, htext, hA⟩ := ha hlt
      have hdrop : text.drop a = '\n' :: B := by
        rw [htext, ← hA, List.drop_left]
      have hT2' : T2 = (text.take n ++ joinWith '\n' (rl.map (addLine (pfx ++ [' '])))) ++
          '\n' :: B := by
        rw [hT2, hdrop, List.append_assoc]
      have hlen2 : (text.take n ++ joinWith '\n' (rl.map (addLine (pfx ++ [' '])))).length =
          n + (joinWith '\n' (rl.map (addLine (pfx ++ [' '])))).length := by
        rw [List.length_append, hlb]
      have hidx : jsIndexOf T2 '\n'
          (a + (pfx ++ [' ']).length * (rl.filter fun l => !(isBlank l)).length) =
          ((n + (joinWith '\n' (rl.map (addLine (pfx ++ [' '])))).length : Nat) : Int) := by
        rw [hT2', ← hm, ← hlen2, jsIndexOf_append_cons]
      unfold actualEndOf
      rw [hidx, if_neg (by omega)]
      omega
    · have hT2len' : T2.length =
          a + (pfx ++ [' ']).length * (rl.filter fun l => !(isBlank l)).length := by
        rw [hT2len, ← heq]
      unfold actualEndOf
      rw [jsIndexOf_of_le T2 '\n' _ (by omega), if_pos rfl, hT2len', ← hm]
  -- the second region is exactly the new middle, line by line
  have h_rl2 : regionLines T2 n
      (a + (pfx ++ [' ']).length * (rl.filter fun l => !(isBlank l)).length) =
      rl.map (addLine (pfx ++ [' '])) := by
    unfold regionLines
    rw [h_n2, h_a2]
    have hmid : jsSlice T2 ((n : Nat) : Int)
        ((n + (joinWith '\n' (rl.map (addLine (pfx ++ [' '])))).length : Nat) : Int) =
        joinWith '\n' (rl.map (addLine (pfx ++ [' ']))) := by
      rw [jsSlice_of_le _ _ _ (by rw [hT2len]; omega)
        (by rw [hT2len, hNSlen]; omega)]
      have hT2' : T2 = (text.take n ++ joinWith '\n' (rl.map (addLine (pfx ++ [' '])))) ++
          text.drop a := by
        rw [hT2, List.append_assoc]
      have hlen2 : (text.take n ++ joinWith '\n' (rl.map (addLine (pfx ++ [' '])))).length =
          n + (joinWith '\n' (rl.map (addLine (pfx ++ [' '])))).length := by
        rw [List.length_append, hlb]
      rw [hT2', List.take_left' hlen2, List.drop_left' hlb]
    rw [hmid, hsplitNS]
  -- the strip branch fires on the new lines
  have h_all2 : allPrefixed (pfx ++ [' ']) (rl.map (addLine (pfx ++ [' ']))) = true := by
    rw [allPrefixed, List.all_eq_true]
    intro l hl
    obtain ⟨m, hm, rfl⟩ := List.mem_map.mp hl
    unfold addLine
    by_cases hb : isBlank m
    · rw [if_neg (by simp [hb])]
      simp [hb]
    · rw [if_pos (by simp [hb])]
      simp only [Bool.or_eq_true]
      exact Or.inl (List.isPrefixOf_iff_prefix.mpr (List.prefix_append _ _))
  -- stripping the added lines restores the original lines
  have h_strip : (rl.map (addLine (pfx ++ [' ']))).map (stripLine (pfx ++ [' '])) = rl := by
    rw [List.map_map]
    have hid : ∀ m ∈ rl, (stripLine (pfx ++ [' ']) ∘ addLine (pfx ++ [' '])) m = m := by
      intro m hm
      simp only [Function.comp_apply]
      unfold addLine
      by_cases hb : isBlank m
      · rw [if_neg (by simp [hb])]
        unfold stripLine
        rw [if_neg ?hnp]
        case hnp =>
          intro hp
          have := isBlank_of_prefix _ _ (List.isPrefixOf_iff_prefix.mp hp) hb
          rw [this] at hpws_nb
          cases hpws_nb
      · rw [if_pos (by simp [hb])]
        unfold stripLine
        rw [if_pos (List.isPrefixOf_iff_prefix.mpr (List.prefix_append _ _)), List.drop_left]
    have hcongr : rl.map ((stripLine (pfx ++ [' '])) ∘ (addLine (pfx ++ [' ']))) =
        rl.map (fun m => m) := List.map_congr_left hid
    rw [hcongr]
    exact List.map_id' rl
  -- assemble the second call
  unfold toggleBlockPrefix
  rw [h_rl2]
  rw [if_pos h_all2]
  show jsSlice T2 0 ((lineStartOf T2 n : Nat) : Int) ++ _ ++ _ = text
  rw [h_n2, h_a2, h_strip, hjoin_rl]
  have hbefore : jsSlice T2 0 ((n : Nat) : Int) = text.take n := by
    rw [jsSlice_zero _ _ (by rw [hT2len]; omega), hT2, List.take_append_of_le_length (by omega),
      List.take_take, Nat.min_self]
  have hafter : jsSlice T2
      ((n + (joinWith '\n' (rl.map (addLine (pfx ++ [' '])))).length : Nat) : Int)
      ((T2.length : Nat) : Int) = text.drop a := by
    rw [jsSlice_to_len]
    have hT2' : T2 = (text.take n ++ joinWith '\n' (rl.map (addLine (pfx ++ [' '])))) ++
        text.drop a := by
      rw [hT2, List.append_assoc]
    have hlen2 : (text.take n ++ joinWith '\n' (rl.map (addLine (pfx ++ [' '])))).length =
        n + (joinWith '\n' (rl.map (addLine (pfx ++ [' '])))).length := by
      rw [List.length_append, hlb]
    rw [hT2', List.drop_left' hlen2]
  rw [hbefore, hafter]
  rw [show text.take n ++ (text.take a).drop n ++ text.drop a =
    text.take n ++ ((text.take a).drop n ++ text.drop a) from by rw [List.append_assoc]]
  rw [drop_take_append_drop text n a hna hal, List.take_append_drop]

/-- C9 (amended): the block-prefix round trip in the add-then-strip
direction, on the returned selection.  For a prefix containing no newline
and not whitespace-only, when the first application takes the add branch
(some expanded line is neither already prefixed nor blank), applying
`toggleBlockPrefix` again with the same prefix to the resulting text and
the resulting selection returns the original text. -/
theorem toggleBlockPrefix_roundtrip (text : Str) (s e : Nat) (pfx : Str)
    (hnl : '\n' ∉ pfx) (hpb : isBlank pfx = false)
    (hse : s ≤ e) (hlen : e ≤ text.length)
    (hadd : allPrefixed (pfx ++ [' ']) (regionLines text s e) = false) :
    (toggleBlockPrefix (toggleBlockPrefix text s e pfx).text
      (toggleBlockPrefix text s e pfx).selection.start
      (toggleBlockPrefix text s e pfx).selection.«end» pfx).text = text := by
  have hal := actualEndOf_le text e
  have hna : lineStartOf text s ≤ actualEndOf text e := by
    by_contra hc
    have hnil : jsSlice text ((lineStartOf text s : Nat) : Int)
        ((actualEndOf text e : Nat) : Int) = [] := by
      unfold jsSlice
      apply List.drop_eq_nil_of_le
      rw [jsIdx_natCast, jsIdx_natCast]
      simp
      omega
    have hba : regionLines text s e = [[]] := by
      unfold regionLines
      rw [hnil]
      rfl
    rw [hba] at hadd
    simp [allPrefixed, isBlank] at hadd
  have hnl2 : lineStartOf text s ≤ text.length := le_trans hna hal
  have hregion : jsSlice text ((lineStartOf text s : Nat) : Int)
      ((actualEndOf text e : Nat) : Int) =
      (text.take (actualEndOf text e)).drop (lineStartOf text s) :=
    jsSlice_of_le text _ _ hnl2 hal
  have hrl : regionLines text s e =
      splitOnChar '\n' ((text.take (actualEndOf text e)).drop (lineStartOf text s)) := by
    unfold regionLines
    rw [hregion]
  have hex : ∃ l ∈ regionLines text s e, isBlank l = false := by
    rw [allPrefixed] at hadd
    rcases List.all_eq_false.mp hadd with ⟨l, hl, hp⟩
    refine ⟨l, hl, ?_⟩
    simp at hp
    exact hp.2
  have hfirst : toggleBlockPrefix text s e pfx =
      ⟨text.take (lineStartOf text s) ++
        joinWith '\n' ((regionLines text s e).map (addLine (pfx ++ [' ']))) ++
        text.drop (actualEndOf text e),
       ⟨lineStartOf text s,
        actualEndOf text e + (pfx ++ [' ']).length *
          ((regionLines text s e).filter fun l => !(isBlank l)).length⟩⟩ := by
    unfold toggleBlockPrefix
    rw [if_neg (by rw [hadd]; simp)]
    rw [jsSlice_zero text _ hnl2, jsSlice_to_len text _]
  rw [hfirst]
  exact toggleBlockPrefix_strips_back text _ (lineStartOf text s) (actualEndOf text e) pfx
    (regionLines text s e) hnl hpb hna hal hrl (List.append_assoc _ _ _)
    (fun h0 => lineStartOf_eq_zero text s h0)
    (fun h1 => lineStartOf_pos text s h1)
    (fun hlt => actualEndOf_lt text e hlt)
    hex

/-- Counterexample to C9 as stated ("applied twice ... to the same initial
selection returns the original text"): on `("x\ny", 0, 2, ">")` the first
application prefixes both lines giving `"> x\n> y"`; re-applying with the
same initial offsets `(0, 2)` expands only to the first line and strips
only it, yielding `"x\n> y"`, not the original text. -/
theorem toggleBlockPrefix_roundtrip_cex :
    (toggleBlockPrefix (toggleBlockPrefix (str "x\ny") 0 2 (str ">")).text
      0 2 (str ">")).text ≠ str "x\ny" := by decide

/-- Witness for C9 at a concrete input: prefixing both lines of `"a\nb"`
and toggling again on the returned selection restores the text. -/
theorem toggleBlockPrefix_roundtrip_witness :
    (toggleBlockPrefix (toggleBlockPrefix (str "a\nb") 0 3 (str ">")).text
      (toggleBlockPrefix (str "a\nb") 0 3 (str ">")).selection.start
      (toggleBlockPrefix (str "a\nb") 0 3 (str ">")).selection.«end» (str ">")).text =
      str "a\nb" :=
  toggleBlockPrefix_roundtrip (str "a\nb") 0 3 (str ">") (by decide) (by decide)
    (by decide) (by decide) (by decide)

end DMF
